import Mathlib

/- Shallow embedding of the pm4py-pred remaining-time prediction pipeline
   (files pm4pypred/algo/prediction/versions/keras_rnn.py and
   pm4pypred/algo/prediction/versions/elasticnet.py).
   Python floats are modelled as real numbers where the logarithmic label
   scaling is involved, and as rationals for timestamp arithmetic; Python
   lists as Lean lists; a Python runtime error (IndexError, ValueError,
   ZeroDivisionError) as an Option-valued result of none. -/

/-- Python builtin max over a non-empty list, as used at keras_rnn.py
line 174 (max(lst)); max of an empty list raises in Python, so every use
below is guarded by an emptiness check that turns that case into none. -/
def pymax : List ℝ → ℝ
  | [] => 0
  | h :: t => t.foldl max h

/-- The per-value normalization applied at keras_rnn.py line 180:
-1.0 + 2.0 * (math.log(val + 1.0) / log_max_value). -/
noncomputable def normalize_value (log_max_value v : ℝ) : ℝ :=
  -1 + 2 * (Real.log (v + 1) / log_max_value)

/-- reconstruct_value (keras_rnn.py lines 184-202): clamps y below at -1
(the Python code mutates y to -1 when y < -1), then inverts the logarithmic
normalization via math.exp((y + 1.0) / 2.0 * log_max_value) - 1. -/
noncomputable def reconstruct_value (y log_max_value : ℝ) : ℝ :=
  Real.exp (((if y < -1 then -1 else y) + 1) / 2 * log_max_value) - 1

/-- normalize_remaining_time (keras_rnn.py lines 157-181): computes the
global maximum of the grouped remaining times starting from -10000000,
takes log_max_value = math.log(1.0 + max_value) and rescales every value
with normalize_value.  Error cases, modelled as none: an empty inner list
makes the Python max(lst) raise; 1 + max_value <= 0 makes math.log raise
ValueError (this happens exactly when the grouped list is empty, leaving
max_value at -10000000); and log_max_value = 0 makes the division at line
180 raise ZeroDivisionError (control only reaches the divisions when at
least one value exists, which is guaranteed once the first two checks
pass). -/
noncomputable def normalize_remaining_time (g : List (List ℝ)) :
    Option (List (List ℝ) × ℝ) :=
  if g.any List.isEmpty then none
  else
    let max_value : ℝ := g.foldl (fun acc lst => max acc (pymax lst)) (-10000000)
    if 1 + max_value ≤ 0 then none
    else
      let log_max_value := Real.log (1 + max_value)
      if log_max_value = 0 then none
      else
        some (g.map (fun lst => lst.map (fun val => normalize_value log_max_value val)),
              log_max_value)

/-- C1: denormalization inverts normalization exactly over the reals: for
every maximum raw value max_v > 0 and every v in [0, max_v],
reconstruct_value (normalize_value (log (1+max_v)) v) (log (1+max_v)) = v,
where log (1+max_v) is the log_max_value returned by
normalize_remaining_time alongside the normalized list. -/
theorem reconstruct_normalize_roundtrip (max_v v : ℝ) (hmax : 0 < max_v)
    (h0 : 0 ≤ v) (h1 : v ≤ max_v) :
    reconstruct_value (normalize_value (Real.log (1 + max_v)) v)
      (Real.log (1 + max_v)) = v := by
  have hL : 0 < Real.log (1 + max_v) := Real.log_pos (by linarith)
  have hlog : 0 ≤ Real.log (v + 1) := Real.log_nonneg (by linarith)
  have hdiv : 0 ≤ Real.log (v + 1) / Real.log (1 + max_v) :=
    div_nonneg hlog hL.le
  have hclamp : ¬ (normalize_value (Real.log (1 + max_v)) v < -1) := by
    unfold normalize_value
    push_neg
    nlinarith
  unfold reconstruct_value
  rw [if_neg hclamp]
  have harg : (normalize_value (Real.log (1 + max_v)) v + 1) / 2 *
      Real.log (1 + max_v) = Real.log (v + 1) := by
    unfold normalize_value
    field_simp
    ring
  rw [harg, Real.exp_log (by linarith : (0 : ℝ) < v + 1)]
  ring

/-- Witness for C1 at max_v = 1, v = 0. -/
theorem reconstruct_normalize_roundtrip_witness :
    reconstruct_value (normalize_value (Real.log (1 + 1)) 0) (Real.log (1 + 1)) = 0 :=
  reconstruct_normalize_roundtrip 1 0 (by norm_num) (by norm_num) (by norm_num)

/-- Helper: folding max over an all-zero list starting from 0 yields 0. -/
theorem foldl_max_zero (t : List ℝ) (ht : ∀ v ∈ t, v = 0) :
    t.foldl max 0 = 0 := by
  induction t with
  | nil => rfl
  | cons a t ih =>
    have ha : a = 0 := ht a (by simp)
    subst ha
    simp only [List.foldl_cons, max_self]
    exact ih (fun v hv => ht v (by simp [hv]))

/-- Helper: the Python max of a non-empty all-zero list is 0. -/
theorem pymax_all_zero (l : List ℝ) (hl : l ≠ []) (hz : ∀ v ∈ l, v = 0) :
    pymax l = 0 := by
  cases l with
  | nil => exact absurd rfl hl
  | cons h t =>
    have hh : h = 0 := hz h (by simp)
    have ht : ∀ v ∈ t, v = 0 := fun v hv => hz v (by simp [hv])
    subst hh
    exact foldl_max_zero t ht

/-- Helper: folding max over pymax of non-empty all-zero lists, starting
from a non-positive accumulator, yields 0. -/
theorem fold_max_all_zero (g : List (List ℝ)) (a : ℝ) (ha : a ≤ 0)
    (hg : g ≠ []) (hz : ∀ l ∈ g, pymax l = 0) :
    g.foldl (fun acc lst => max acc (pymax lst)) a = 0 := by
  induction g generalizing a with
  | nil => exact absurd rfl hg
  | cons l t ih =>
    have hl : pymax l = 0 := hz l (by simp)
    simp only [List.foldl_cons, hl]
    cases t with
    | nil => simpa using max_eq_right ha
    | cons b t2 =>
      exact ih (max a 0) (by simp [ha]) (by simp)
        (fun l2 hl2 => hz l2 (by simp [hl2]))

/-- C9: normalize_remaining_time is only well-defined when some raw value
is strictly positive: when every grouped remaining-time value is 0 the
global maximum is 0, log_max_value = log 1 = 0, and the normalization
divides by zero, so the function errors (none) instead of returning a
normalized list. -/
theorem normalize_remaining_time_all_zero_errors (g : List (List ℝ))
    (hne : g ≠ []) (hlne : ∀ l ∈ g, l ≠ []) (hz : ∀ l ∈ g, ∀ v ∈ l, v = 0) :
    normalize_remaining_time g = none := by
  have hany : g.any List.isEmpty = false := by
    simp only [List.any_eq_false]
    intro l hl
    simpa [List.isEmpty_iff] using hlne l hl
  have hmax : g.foldl (fun acc lst => max acc (pymax lst)) (-10000000) = 0 :=
    fold_max_all_zero g (-10000000) (by norm_num) hne
      (fun l hl => pymax_all_zero l (hlne l hl) (hz l hl))
  unfold normalize_remaining_time
  rw [hany]
  simp only [Bool.false_eq_true, if_false, hmax]
  rw [if_neg (by norm_num)]
  norm_num

/-- Witness for C9 at the concrete grouped list [[0]]. -/
theorem normalize_remaining_time_all_zero_errors_witness :
    normalize_remaining_time [[0]] = none :=
  normalize_remaining_time_all_zero_errors [[0]] (by simp) (by simp) (by simp)

/- Trace representation for the sequence model (keras_rnn.py lines 17-117).
   A Python event is a mapping from attribute name to value, iterated in
   insertion order; it is modelled as an association list of strings (value
   str() images).  The feature dictionary maps descriptor strings to column
   indices. -/

abbrev Event := List (String × String)

abbrev Trace := List Event

abbrev FeatDict := List (String × ℕ)

/-- Python dict lookup for the feature dictionary (dictionary_features[rep],
together with the membership test rep in dictionary_features). -/
def dictFind (d : FeatDict) (k : String) : Option ℕ :=
  (d.find? (fun p => p.1 == k)).map (fun p => p.2)

/-- Python membership/lookup on an event (attribute_name in next_event,
next_event[attribute_name]). -/
def eventFind (e : Event) (k : String) : Option String :=
  (e.find? (fun p => p.1 == k)).map (fun p => p.2)

/-- The per-event feature vector built at keras_rnn.py lines 38-53: a zero
vector of width len(dictionary_features); for every attribute of the event,
the index of descriptor "event:attr@value" (when present in the dictionary)
is set to 1; when a next event exists, for every attribute of the event
also present on the next event, the index of descriptor
"succession:attr@v1#v2" (when present) is set to 1. -/
def build_ev_vector (d : FeatDict) (event : Event) (nextEvent : Option Event) :
    List ℕ :=
  let v0 := List.replicate d.length 0
  let v1 := event.foldl (fun v p =>
    match dictFind d ("event:" ++ p.1 ++ "@" ++ p.2) with
    | some idx => v.set idx 1
    | none => v) v0
  match nextEvent with
  | none => v1
  | some nev => event.foldl (fun v p =>
      match eventFind nev p.1 with
      | some val2 =>
        match dictFind d ("succession:" ++ p.1 ++ "@" ++ p.2 ++ "#" ++ val2) with
        | some idx => v.set idx 1
        | none => v
      | none => v) v1

/-- Transposition of a rectangular list of lists, modelling
np.transpose(np.asmatrix(X)).tolist() at keras_rnn.py lines 60-61: the
output has one row per column of X (the column count read off the first
row), each output row listing that column across all rows of X.  For an
empty X, or an X whose rows are empty, the numpy result is the empty
list, as here. -/
def transposeLL (X : List (List ℕ)) : List (List ℕ) :=
  match X with
  | [] => []
  | r :: _ => (List.range r.length).map (fun j => X.map (fun row => row.getD j 0))

/-- get_trace_rep_rnn (keras_rnn.py lines 17-63): builds one feature vector
per event index below min(len(trace), max_len_trace), then zero-pads while
j = len(trace) < max_len_trace (each padding row np.zeros(len(X[-1])) has
the width of the last row), then transposes.  When the padding loop runs
with X empty (exactly when the trace is empty and max_len_trace > 0) the
Python X[-1] raises IndexError, modelled as none. -/
def get_trace_rep_rnn (trace : Trace) (dictionary_features : FeatDict)
    (max_len_trace : ℕ) : Option (List (List ℕ)) :=
  let n := min trace.length max_len_trace
  let X := (List.range n).map (fun index =>
    build_ev_vector dictionary_features (trace.getD index [])
      (if index < trace.length - 1 then some (trace.getD (index + 1) []) else none))
  if trace.length < max_len_trace then
    if X.isEmpty then none
    else
      some (transposeLL (X ++ List.replicate (max_len_trace - trace.length)
        (List.replicate (X.getLastD []).length 0)))
  else
    some (transposeLL X)

/-- get_log_rep_rnn (keras_rnn.py lines 66-90): encodes every trace and
keeps only the non-empty (truthy) representations; an error in any trace
encoding propagates. -/
def get_log_rep_rnn (log : List Trace) (dictionary_features : FeatDict)
    (max_len_trace : ℕ) : Option (List (List (List ℕ))) :=
  match log with
  | [] => some []
  | trace :: rest => do
    let rep ← get_trace_rep_rnn trace dictionary_features max_len_trace
    let X ← get_log_rep_rnn rest dictionary_features max_len_trace
    return if rep.isEmpty then X else rep :: X

/-- The dictionary built at keras_rnn.py lines 111-113: feature name at
enumeration position index maps to index. -/
def dict_of_features (feature_names : List String) : FeatDict :=
  feature_names.enum.map (fun p => (p.2, p.1))

/-- get_X_from_log (keras_rnn.py lines 93-117): builds the dictionary from
the feature names and encodes the whole log. -/
def get_X_from_log (log : List Trace) (feature_names : List String)
    (max_len_trace : ℕ) : Option (List (List (List ℕ))) :=
  get_log_rep_rnn log (dict_of_features feature_names) max_len_trace

/-- Helper: a fold whose step preserves list length preserves list length. -/
theorem foldl_preserve_length {α : Type} (f : List ℕ → α → List ℕ)
    (hf : ∀ v a, (f v a).length = v.length) :
    ∀ (l : List α) (v : List ℕ), (l.foldl f v).length = v.length := by
  intro l
  induction l with
  | nil => intro v; rfl
  | cons a t ih =>
    intro v
    rw [List.foldl_cons, ih (f v a), hf v a]

/-- Helper: the per-event feature vector always has the dictionary width. -/
theorem set_match_length : ∀ (o : Option ℕ) (v : List ℕ),
    (match o with
      | some idx => v.set idx 1
      | none => v).length = v.length := by
  intro o v
  cases o <;> simp

theorem build_ev_vector_length (d : FeatDict) (e : Event) (ne : Option Event) :
    (build_ev_vector d e ne).length = d.length := by
  unfold build_ev_vector
  have h1 : ∀ (v : List ℕ) (p : String × String),
      (match dictFind d ("event:" ++ p.1 ++ "@" ++ p.2) with
        | some idx => v.set idx 1
        | none => v).length = v.length := by
    intro v p
    exact set_match_length _ v
  cases ne with
  | none =>
    simp only []
    rw [foldl_preserve_length _ h1 e (List.replicate d.length 0),
      List.length_replicate]
  | some nev =>
    have h2 : ∀ (v : List ℕ) (p : String × String),
        (match eventFind nev p.1 with
          | some val2 =>
            match dictFind d ("succession:" ++ p.1 ++ "@" ++ p.2 ++ "#" ++ val2) with
            | some idx => v.set idx 1
            | none => v
          | none => v).length = v.length := by
      intro v p
      cases eventFind nev p.1 with
      | none => rfl
      | some val2 => exact set_match_length _ v
    simp only []
    rw [foldl_preserve_length _ h2 e _,
      foldl_preserve_length _ h1 e (List.replicate d.length 0),
      List.length_replicate]

/-- Helper: getLastD of a non-empty list is a member. -/
theorem getLastD_mem {α : Type} (l : List α) : ∀ (d : α), l ≠ [] → l.getLastD d ∈ l := by
  induction l with
  | nil => intro d h; exact absurd rfl h
  | cons a t ih =>
    intro d h
    cases t with
    | nil => simp [List.getLastD]
    | cons b t2 =>
      rw [List.getLastD_cons]
      exact List.mem_cons_of_mem a (ih a (by simp))

/-- Helper: headD of a non-empty list is a member. -/
theorem headD_mem {α : Type} (l : List α) (d : α) (h : l ≠ []) : l.headD d ∈ l := by
  cases l with
  | nil => exact absurd rfl h
  | cons a t => simp [List.headD]

/-- Helper: getD on a map, inside the range. -/
theorem getD_map_of_lt {α β : Type} (g : α → β) (l : List α) (k : ℕ) (d : α)
    (d2 : β) (hk : k < l.length) :
    (l.map g).getD k d2 = g (l.getD k d) := by
  induction l generalizing k with
  | nil => simp at hk
  | cons a t ih =>
    cases k with
    | zero => rfl
    | succ k => simpa using ih k (by simpa using hk)

/-- Helper: getD on a replicate, inside the range. -/
theorem getD_replicate_lt {α : Type} (m i : ℕ) (x d : α) (h : i < m) :
    (List.replicate m x).getD i d = x := by
  induction m generalizing i with
  | zero => omega
  | succ m ih =>
    cases i with
    | zero => rfl
    | succ i => simpa [List.replicate_succ] using ih i (by omega)

/-- Helper: getD on a replicate of zeros is zero at every index. -/
theorem getD_replicate_zero (W j : ℕ) : (List.replicate W (0 : ℕ)).getD j 0 = 0 := by
  induction W generalizing j with
  | zero => simp
  | succ W ih =>
    cases j with
    | zero => rfl
    | succ j => simpa [List.replicate_succ] using ih j

/-- Helper: getD on an append, past the first part. -/
theorem getD_append_ge {α : Type} (l1 l2 : List α) (i : ℕ) (d : α)
    (h : l1.length ≤ i) :
    (l1 ++ l2).getD i d = l2.getD (i - l1.length) d := by
  induction l1 generalizing i with
  | nil => simp
  | cons a t ih =>
    cases i with
    | zero => simp at h
    | succ i => simpa using ih i (by simpa using h)

/-- C2 counterexample: for the one-event trace [("concept:name","A")], a
two-descriptor feature dictionary and max_len_trace = 3, the returned
representation has 2 entries in its first dimension (the dictionary size),
not 3 = L as the claim states: the builder transposes before returning. -/
theorem get_trace_rep_rnn_len_counterexample :
    (get_trace_rep_rnn [[("concept:name", "A")]] [("x", 0), ("y", 1)] 3).map
      List.length = some 2 ∧ (2 : ℕ) ≠ 3 :=
  ⟨by decide, by decide⟩

/-- Helper: shape of the per-trace representation (used by the C2 and C5
theorems): for a non-empty trace and L >= 1 the builder succeeds, the first
dimension is the dictionary size, the second is L, and padding columns are
all zero. -/
theorem get_trace_rep_rnn_shape_aux (trace : Trace) (d : FeatDict) (L : ℕ)
    (htr : trace ≠ []) (hL : 1 ≤ L) :
    ∃ M, get_trace_rep_rnn trace d L = some M ∧ M.length = d.length ∧
      (∀ r ∈ M, r.length = L) ∧
      (∀ r ∈ M, ∀ k, trace.length ≤ k → k < L → r.getD k 0 = 0) := by
  have htlen : 1 ≤ trace.length := List.length_pos.mpr htr
  set f : ℕ → List ℕ := fun index =>
    build_ev_vector d (trace.getD index [])
      (if index < trace.length - 1 then some (trace.getD (index + 1) []) else none)
    with hf
  set X : List (List ℕ) := (List.range (min trace.length L)).map f with hX
  have hXlen : X.length = min trace.length L := by
    rw [hX, List.length_map, List.length_range]
  have hXne : X ≠ [] := by
    intro h0
    rw [h0] at hXlen
    simp only [List.length_nil] at hXlen
    omega
  have hXrows : ∀ row ∈ X, row.length = d.length := by
    intro row hrow
    rcases List.mem_map.1 hrow with ⟨i, _, hrowi⟩
    rw [← hrowi]
    exact build_ev_vector_length d _ _
  by_cases hlt : trace.length < L
  · -- padding case
    have hnn : min trace.length L = trace.length := min_eq_left (le_of_lt hlt)
    set P : List (List ℕ) := List.replicate (L - trace.length)
        (List.replicate (X.getLastD []).length 0) with hP
    have hWlast : (X.getLastD []).length = d.length :=
      hXrows _ (getLastD_mem X [] hXne)
    have hXProws : ∀ row ∈ X ++ P, row.length = d.length := by
      intro row hrow
      rcases List.mem_append.1 hrow with h | h
      · exact hXrows row h
      · rw [List.eq_of_mem_replicate h, List.length_replicate, hWlast]
    have hXPlen : (X ++ P).length = L := by
      rw [List.length_append, hXlen, hnn, hP, List.length_replicate]
      omega
    have hres : get_trace_rep_rnn trace d L = some (transposeLL (X ++ P)) := by
      unfold get_trace_rep_rnn
      simp only [← hf, ← hX, ← hP]
      rw [if_pos hlt, if_neg (by simpa [List.isEmpty_iff] using hXne)]
    cases hXP : X ++ P with
    | nil => rw [hXP] at hXPlen; simp at hXPlen; omega
    | cons r0 rest =>
      have hr0 : r0.length = d.length := by
        apply hXProws
        rw [hXP]
        exact List.mem_cons_self r0 rest
      have hrestlen : (r0 :: rest).length = L := by rw [← hXP]; exact hXPlen
      refine ⟨transposeLL (r0 :: rest), by rw [hres, hXP], ?_, ?_, ?_⟩
      · rw [transposeLL, List.length_map, List.length_range, hr0]
      · intro r hr
        rcases List.mem_map.1 hr with ⟨j, _, hrj⟩
        rw [← hrj, List.length_map, hrestlen]
      · intro r hr k hk1 hk2
        rcases List.mem_map.1 hr with ⟨j, _, hrj⟩
        rw [← hrj]
        rw [getD_map_of_lt (fun row => row.getD j 0) (r0 :: rest) k [] 0
          (by rw [hrestlen]; exact hk2)]
        rw [← hXP, getD_append_ge X P k [] (by rw [hXlen, hnn]; exact hk1)]
        rw [hP, hXlen, hnn,
          getD_replicate_lt (L - trace.length) (k - trace.length) _ [] (by omega)]
        exact getD_replicate_zero _ j
  · -- truncation / exact-length case
    have hnn : min trace.length L = L := min_eq_right (le_of_not_lt hlt)
    have hres : get_trace_rep_rnn trace d L = some (transposeLL X) := by
      unfold get_trace_rep_rnn
      simp only [← hf, ← hX]
      rw [if_neg hlt]
    have hXlenL : X.length = L := by rw [hXlen, hnn]
    cases hXc : X with
    | nil => exact absurd hXc hXne
    | cons r0 rest =>
      have hr0 : r0.length = d.length := by
        apply hXrows
        rw [hXc]
        exact List.mem_cons_self r0 rest
      have hrestlen : (r0 :: rest).length = L := by rw [← hXc]; exact hXlenL
      refine ⟨transposeLL (r0 :: rest), by rw [hres, hXc], ?_, ?_, ?_⟩
      · rw [transposeLL, List.length_map, List.length_range, hr0]
      · intro r hr
        rcases List.mem_map.1 hr with ⟨j, _, hrj⟩
        rw [← hrj, List.length_map, hrestlen]
      · intro r hr k hk1 hk2
        omega

/-- C2 (amended): for every non-empty trace, every feature dictionary whose
indices are in range (as the dictionaries built from enumerate always are;
an out-of-range index would make the Python item assignment raise), and
every L >= 1, the per-trace representation is returned without error and
has exactly the dictionary size as its first dimension and L as its second
dimension (the transpose of the shape the claim states), with all-zero
padding columns at timestep positions at or beyond the trace length. -/
theorem get_trace_rep_rnn_shape (trace : Trace) (d : FeatDict) (L : ℕ)
    (htr : trace ≠ []) (hL : 1 ≤ L) (hwf : ∀ p ∈ d, p.2 < d.length) :
    ∃ M, get_trace_rep_rnn trace d L = some M ∧ M.length = d.length ∧
      (∀ r ∈ M, r.length = L) ∧
      (∀ r ∈ M, ∀ k, trace.length ≤ k → k < L → r.getD k 0 = 0) :=
  get_trace_rep_rnn_shape_aux trace d L htr hL

/-- Witness for the amended C2 at the counterexample input: trace of one
event, dictionary of two descriptors, L = 3. -/
theorem get_trace_rep_rnn_shape_witness :
    ∃ M, get_trace_rep_rnn [[("concept:name", "A")]] [("x", 0), ("y", 1)] 3 =
        some M ∧ M.length = 2 ∧ (∀ r ∈ M, r.length = 3) ∧
      (∀ r ∈ M, ∀ k, 1 ≤ k → k < 3 → r.getD k 0 = 0) :=
  get_trace_rep_rnn_shape [[("concept:name", "A")]] [("x", 0), ("y", 1)] 3
    (by simp) (by norm_num) (by decide)

/-- Helper: a non-empty trace always encodes without error (the IndexError
in the padding loop only fires for an empty trace). -/
theorem get_trace_rep_rnn_isSome (trace : Trace) (d : FeatDict) (L : ℕ)
    (htr : trace ≠ []) : (get_trace_rep_rnn trace d L).isSome = true := by
  have htlen : 1 ≤ trace.length := List.length_pos.mpr htr
  unfold get_trace_rep_rnn
  by_cases hlt : trace.length < L
  · rw [if_pos hlt]
    have hne : ((List.range (min trace.length L)).map (fun index =>
        build_ev_vector d (trace.getD index [])
          (if index < trace.length - 1 then some (trace.getD (index + 1) [])
            else none))).isEmpty = false := by
      rw [List.isEmpty_eq_false_iff_exists_mem]
      have : min trace.length L = trace.length := min_eq_left hlt.le
      cases hrange : List.range (min trace.length L) with
      | nil =>
        exfalso
        have := List.range_eq_nil.mp hrange
        omega
      | cons a t => exact ⟨_, List.mem_map_of_mem _ (List.mem_cons_self a t)⟩
    rw [hne]
    simp
  · rw [if_neg hlt]
    simp

/-- Helper: characterization of get_log_rep_rnn on logs of non-empty
traces (used by the C4 and C5 theorems): it never errors, and keeps
exactly the non-empty per-trace representations, in order. -/
theorem get_log_rep_rnn_filter_aux (log : List Trace) (d : FeatDict) (L : ℕ)
    (h : ∀ tr ∈ log, tr ≠ []) :
    get_log_rep_rnn log d L =
      some ((log.map (fun tr => (get_trace_rep_rnn tr d L).getD [])).filter
        (fun r => !r.isEmpty)) := by
  induction log with
  | nil => rfl
  | cons tr rest ih =>
    have htr : tr ≠ [] := h tr (by simp)
    obtain ⟨rep, hrep⟩ :=
      Option.isSome_iff_exists.1 (get_trace_rep_rnn_isSome tr d L htr)
    rw [get_log_rep_rnn, hrep, ih (fun t ht => h t (by simp [ht]))]
    simp only [Option.bind_eq_bind, Option.some_bind]
    rw [List.map_cons, List.filter_cons, hrep]
    cases hre : rep.isEmpty
    · simp [hre]
    · simp [hre]

/-- C4 counterexample: encoding a log that contains an empty trace with
max_len_trace = 1 errors (the padding loop evaluates X[-1] on an empty
list, an IndexError) instead of silently dropping the trace. -/
theorem get_X_from_log_empty_trace_errors :
    get_X_from_log [[]] ["x"] 1 = none := by decide

/-- C4 (amended): for every log whose traces are all non-empty, every
in-range feature dictionary and every max_len, the log encoder raises no
error and silently drops exactly the traces whose representation is empty;
an empty trace, however, raises an IndexError in the padding loop rather
than being dropped. -/
theorem get_log_rep_rnn_drops_empty (log : List Trace) (d : FeatDict) (L : ℕ)
    (h : ∀ tr ∈ log, tr ≠ []) (hwf : ∀ p ∈ d, p.2 < d.length) :
    get_log_rep_rnn log d L =
      some ((log.map (fun tr => (get_trace_rep_rnn tr d L).getD [])).filter
        (fun r => !r.isEmpty)) :=
  get_log_rep_rnn_filter_aux log d L h

/-- Witness for the amended C4: a one-event trace against an empty feature
dictionary yields an empty representation and is dropped without error. -/
theorem get_log_rep_rnn_drops_empty_witness :
    get_log_rep_rnn [[[("a", "b")]]] [] 2 =
      some (([[[("a", "b")]]].map
        (fun tr => (get_trace_rep_rnn tr [] 2).getD [])).filter
        (fun r => !r.isEmpty)) :=
  get_log_rep_rnn_drops_empty [[[("a", "b")]]] [] 2 (by simp) (by simp)

/- Hidden-unit computation of the sequence-model train
   (keras_rnn.py lines 266 and 285-287). -/

/-- Python builtin max over a non-empty list of naturals, as used at
keras_rnn.py line 266 (max([len(trace) for trace in log])); raises on an
empty log, so the theorems assume a non-empty log. -/
def pymaxNat : List ℕ → ℕ
  | [] => 0
  | h :: t => t.foldl max h

/-- max_len_trace computed at keras_rnn.py line 266. -/
def train_max_len_trace (log : List Trace) : ℕ :=
  pymaxNat (log.map List.length)

/-- X.shape[2] of the stacked 3-D array np.array(X) built at line 285: the
length of the first row of the first per-trace representation (this is the
numpy shape whenever the stacked array is non-degenerate, which the
theorems below guarantee through their hypotheses). -/
def shape2 (X : List (List (List ℕ))) : ℕ :=
  ((X.headD []).headD []).length

/-- The hidden-unit computation at keras_rnn.py line 287:
hidden_neurons = min(int(in_out_neurons * 7.5), 50) with
in_out_neurons = X.shape[2].  The float product n * 7.5 is exact for the
magnitudes at hand and int() truncates toward zero, so the computation
equals natural division (15 * n) / 2. -/
def train_hidden_neurons (log : List Trace) (feature_names : List String) :
    Option ℕ :=
  (get_X_from_log log feature_names (train_max_len_trace log)).map
    (fun X => min ((15 * shape2 X) / 2) 50)

/-- Modelled from the claim wording only (for comparison with the code):
hidden units = min(round(7.5 * w), 50) with w the feature width, i.e. the
number of feature names. -/
def claimed_hidden_neurons (w : ℕ) : ℤ :=
  min (round ((15 * w : ℚ) / 2)) 50

/-- Helper: the initial accumulator bounds a foldl of max from below. -/
theorem le_foldl_max_nat : ∀ (l : List ℕ) (a : ℕ), a ≤ l.foldl max a := by
  intro l
  induction l with
  | nil => intro a; exact le_refl a
  | cons b t ih =>
    intro a
    exact le_trans (le_max_left a b) (ih (max a b))

/-- Helper: every member bounds a foldl of max from below. -/
theorem mem_le_foldl_max : ∀ (t : List ℕ) (a x : ℕ), x ∈ t → x ≤ t.foldl max a := by
  intro t
  induction t with
  | nil => intro a x hx; simp at hx
  | cons b t ih =>
    intro a x hx
    rcases List.mem_cons.1 hx with h | h
    · subst h
      exact le_trans (le_max_right a x) (le_foldl_max_nat t (max a x))
    · exact ih (max a b) x h

/-- Helper: every member is at most the Python max. -/
theorem mem_le_pymaxNat (l : List ℕ) (x : ℕ) (hx : x ∈ l) : x ≤ pymaxNat l := by
  cases l with
  | nil => simp at hx
  | cons h t =>
    rcases List.mem_cons.1 hx with h1 | h1
    · subst h1
      exact le_foldl_max_nat t x
    · exact mem_le_foldl_max t h x h1

/-- Helper: members of enumFrom have first component below start + length. -/
theorem enumFrom_fst_lt {α : Type} :
    ∀ (l : List α) (k : ℕ) (p : ℕ × α), p ∈ l.enumFrom k → p.1 < k + l.length := by
  intro l
  induction l with
  | nil => intro k p hp; simp at hp
  | cons a t ih =>
    intro k p hp
    rw [List.enumFrom_cons] at hp
    rcases List.mem_cons.1 hp with h | h
    · subst h; simp
    · have := ih (k + 1) p h
      simp only [List.length_cons]
      omega

/-- Helper: every index stored in a dictionary built from a feature-name
list is in range. -/
theorem dict_of_features_wf (fnames : List String) :
    ∀ p ∈ dict_of_features fnames, p.2 < (dict_of_features fnames).length := by
  intro p hp
  unfold dict_of_features at hp ⊢
  rw [List.length_map, List.enum_length]
  rcases List.mem_map.1 hp with ⟨q, hq, hqp⟩
  have := enumFrom_fst_lt fnames 0 q hq
  rw [← hqp]
  simpa using this

/-- C5 counterexample: for a log with one 3-event trace and 2 feature
names, the code computes min(int(7.5 * X.shape[2]), 50) = min(22, 50) = 22
(X.shape[2] is the timestep dimension, equal to max_len_trace = 3 after
the transpose), while the claim min(round(7.5 * feature-width), 50) gives
min(15, 50) = 15. -/
theorem train_hidden_neurons_counterexample :
    train_hidden_neurons [[[], [], []]] ["f", "g"] = some 22 ∧
      claimed_hidden_neurons 2 = 15 ∧ (22 : ℤ) ≠ 15 := by
  refine ⟨by decide, ?_, by decide⟩
  unfold claimed_hidden_neurons
  norm_num

/-- C5 (amended): for every non-empty log of non-empty traces and every
non-empty feature-name list, the hidden-unit count computed by the
sequence-model train equals min((15 * max_len_trace) / 2, 50), i.e.
min(int(7.5 * max_len_trace), 50): the in_out_neurons variable reads
X.shape[2], which is the padded timestep dimension (the maximum trace
length), not the feature width, and int() truncates instead of rounding. -/
theorem train_hidden_neurons_eq (log : List Trace) (fnames : List String)
    (hlog : log ≠ []) (htr : ∀ tr ∈ log, tr ≠ []) (hf : fnames ≠ []) :
    train_hidden_neurons log fnames =
      some (min ((15 * train_max_len_trace log) / 2) 50) := by
  cases log with
  | nil => exact absurd rfl hlog
  | cons tr0 rest =>
    have hdlen : (dict_of_features fnames).length = fnames.length := by
      unfold dict_of_features
      rw [List.length_map, List.enum_length]
    have htr0 : tr0 ≠ [] := htr tr0 (by simp)
    have hm1 : 1 ≤ train_max_len_trace (tr0 :: rest) := by
      have h1 : 1 ≤ tr0.length := List.length_pos.mpr htr0
      have h2 : tr0.length ≤ train_max_len_trace (tr0 :: rest) := by
        unfold train_max_len_trace
        exact mem_le_pymaxNat _ _
          (List.mem_map_of_mem List.length (List.mem_cons_self tr0 rest))
      omega
    obtain ⟨M0, hM0, hM0len, hM0rows, _⟩ :=
      get_trace_rep_rnn_shape_aux tr0 (dict_of_features fnames)
        (train_max_len_trace (tr0 :: rest)) htr0 hm1
    have hM0ne : M0 ≠ [] := by
      intro h0
      rw [h0] at hM0len
      simp only [List.length_nil] at hM0len
      rw [hdlen] at hM0len
      exact hf (List.length_eq_zero.mp hM0len.symm)
    have hchar := get_log_rep_rnn_filter_aux (tr0 :: rest) (dict_of_features fnames)
      (train_max_len_trace (tr0 :: rest)) htr
    unfold train_hidden_neurons get_X_from_log
    rw [hchar, List.map_cons, List.filter_cons, hM0]
    simp only [Option.getD_some]
    have hM0empty : M0.isEmpty = false := by
      cases M0 with
      | nil => exact absurd rfl hM0ne
      | cons r t => rfl
    rw [hM0empty]
    simp only [Bool.not_false, if_true]
    have hsh : ∀ tail, shape2 (M0 :: tail) = train_max_len_trace (tr0 :: rest) := by
      intro tail
      unfold shape2
      simp only [List.headD_cons]
      exact hM0rows _ (headD_mem M0 [] hM0ne)
    rw [Option.map_some', hsh]

/-- Witness for the amended C5 at the counterexample log. -/
theorem train_hidden_neurons_eq_witness :
    train_hidden_neurons [[[], [], []]] ["f", "g"] =
      some (min ((15 * train_max_len_trace [[[], [], []]]) / 2) 50) :=
  train_hidden_neurons_eq [[[], [], []]] ["f", "g"] (by decide) (by decide)
    (by decide)

/- Label extraction (identical code in keras_rnn.py lines 205-245 and
   elasticnet.py lines 13-53), and the label computation inside the
   elastic-net train (elasticnet.py lines 103-124).  Events are reduced to
   their timestamps (the only attribute the code reads), modelled as
   rationals measured in seconds, so that the difference of two timestamps
   is total_seconds; the business-calendar collaborator
   BusinessHours(st, et, ...).getseconds() is an external black box,
   modelled as an uninterpreted function bhf applied to the naive start
   and end timestamps (tzinfo stripping is the identity on naive values). -/

/-- Per-trace body of get_remaining_time_from_log: for each event index
below max_len_trace, the remaining time from that event to the last event
of the trace (wall-clock difference trace[-1] - trace[index], or
bhf trace[index] trace[-1] under business hours), then padding with the
list's own last value up to max_len_trace.  Padding an empty list
(an empty trace with max_len_trace > 0) evaluates y_orig[-1][-1] on an
empty list in Python, an IndexError, modelled as none. -/
def rem_times_trace (business : Bool) (bhf : ℚ → ℚ → ℚ) (trace : List ℚ)
    (max_len_trace : ℕ) : Option (List ℚ) :=
  let vals := (trace.take max_len_trace).map (fun t =>
    if business then bhf t (trace.getLastD 0) else trace.getLastD 0 - t)
  if vals.isEmpty ∧ max_len_trace ≠ 0 then none
  else some (vals ++ List.replicate (max_len_trace - vals.length) (vals.getLastD 0))

/-- get_remaining_time_from_log: one remaining-time list per trace. -/
def get_remaining_time_from_log (business : Bool) (bhf : ℚ → ℚ → ℚ)
    (log : List (List ℚ)) (max_len_trace : ℕ) : Option (List (List ℚ)) :=
  log.mapM (fun trace => rem_times_trace business bhf trace max_len_trace)

/-- The labels computed by the elastic-net train when no y_orig is supplied
(elasticnet.py lines 106-124): one value per trace of the expanded log,
namely trace[-1] - trace[0] in wall-clock seconds, or
bhf trace[0] trace[-1] under business hours, and 0 for an empty trace. -/
def elasticnet_train_labels (business : Bool) (bhf : ℚ → ℚ → ℚ)
    (ext_log : List (List ℚ)) : List ℚ :=
  if business then
    ext_log.map (fun trace => if trace.isEmpty then 0
      else bhf (trace.headD 0) (trace.getLastD 0))
  else
    ext_log.map (fun trace => if trace.isEmpty then 0
      else trace.getLastD 0 - trace.headD 0)

/-- Helper: one unfolding step of elasticnet_train_labels. -/
theorem elasticnet_train_labels_cons (business : Bool) (bhf : ℚ → ℚ → ℚ)
    (tr : List ℚ) (rest : List (List ℚ)) :
    elasticnet_train_labels business bhf (tr :: rest) =
      (if tr.isEmpty then 0
        else if business then bhf (tr.headD 0) (tr.getLastD 0)
        else tr.getLastD 0 - tr.headD 0) :: elasticnet_train_labels business bhf rest := by
  cases business <;> simp [elasticnet_train_labels]

/-- Helper: for a non-empty trace and max_len_trace >= 1, the extractor
succeeds on the trace and the first entry of its output is the remaining
time at the first event. -/
theorem rem_times_trace_headD (business : Bool) (bhf : ℚ → ℚ → ℚ)
    (tr : List ℚ) (m : ℕ) (htr : tr ≠ []) (hm : 1 ≤ m) :
    ∃ l, rem_times_trace business bhf tr m = some l ∧
      l.headD 0 = (if business then bhf (tr.headD 0) (tr.getLastD 0)
        else tr.getLastD 0 - tr.headD 0) := by
  cases tr with
  | nil => exact absurd rfl htr
  | cons a t =>
    cases m with
    | zero => omega
    | succ m =>
      unfold rem_times_trace
      simp only [List.take_succ_cons, List.map_cons]
      rw [if_neg (by simp)]
      exact ⟨_, rfl, by simp⟩

/-- C3: in the elastic-net train, when no precomputed y_orig is supplied,
the label attached to every expanded prefix equals that prefix's own
remaining time as given by the Label Extractor applied to the expanded
log: the first entry of get_remaining_time_from_log for that prefix (the
remaining time at the prefix's first event, wall-clock or business-hours
according to the business flag), one label per prefix, in order. -/
theorem elasticnet_train_labels_are_extractor_heads (business : Bool)
    (bhf : ℚ → ℚ → ℚ) (ext_log : List (List ℚ)) (m : ℕ) (hm : 1 ≤ m)
    (h : ∀ tr ∈ ext_log, tr ≠ []) :
    ∃ Y, get_remaining_time_from_log business bhf ext_log m = some Y ∧
      elasticnet_train_labels business bhf ext_log =
        Y.map (fun l => l.headD 0) := by
  induction ext_log with
  | nil =>
    refine ⟨[], rfl, ?_⟩
    cases business <;> rfl
  | cons tr rest ih =>
    have htr : tr ≠ [] := h tr (by simp)
    obtain ⟨l, hl, hlhead⟩ := rem_times_trace_headD business bhf tr m htr hm
    obtain ⟨Y, hY, hYmap⟩ := ih (fun t ht => h t (by simp [ht]))
    refine ⟨l :: Y, ?_, ?_⟩
    · unfold get_remaining_time_from_log at hY ⊢
      rw [List.mapM_cons, hl, hY]
      rfl
    · rw [elasticnet_train_labels_cons, List.map_cons, ← hlhead, hYmap,
        if_neg (by simpa [List.isEmpty_iff] using htr)]

/-- Witness for C3 at a two-prefix expanded log with wall-clock labels. -/
theorem elasticnet_train_labels_are_extractor_heads_witness :
    ∃ Y, get_remaining_time_from_log false (fun _ _ => (0 : ℚ)) [[0, 5], [3]] 2 =
        some Y ∧
      elasticnet_train_labels false (fun _ _ => (0 : ℚ)) [[0, 5], [3]] =
        Y.map (fun l => l.headD 0) :=
  elasticnet_train_labels_are_extractor_heads false (fun _ _ => (0 : ℚ))
    [[0, 5], [3]] 2 (by norm_num) (by decide)

/-- Helper: getD on an append, inside the first part. -/
theorem getD_append_lt {α : Type} (l1 l2 : List α) (i : ℕ) (d : α)
    (h : i < l1.length) :
    (l1 ++ l2).getD i d = l1.getD i d := by
  induction l1 generalizing i with
  | nil => simp at h
  | cons a t ih =>
    cases i with
    | zero => rfl
    | succ i => simpa using ih i (by simpa using h)

/-- Helper: getD on a take, inside the taken part. -/
theorem getD_take_lt {α : Type} (l : List α) (n i : ℕ) (d : α) (h : i < n) :
    (l.take n).getD i d = l.getD i d := by
  induction l generalizing n i with
  | nil => simp
  | cons a t ih =>
    cases n with
    | zero => omega
    | succ n =>
      cases i with
      | zero => rfl
      | succ i => simpa using ih n i (by omega)

/-- Helper: getLastD of a non-empty list does not depend on the default. -/
theorem getLastD_of_ne_nil {α : Type} (l : List α) (d1 d2 : α) (h : l ≠ []) :
    l.getLastD d1 = l.getLastD d2 := by
  cases l with
  | nil => exact absurd rfl h
  | cons a t =>
    rw [List.getLastD_cons, List.getLastD_cons]

/-- Helper: the last entry of a non-empty list via getD. -/
theorem getD_last_eq_getLastD {α : Type} (l : List α) (d : α) (h : l ≠ []) :
    l.getD (l.length - 1) d = l.getLastD d := by
  induction l with
  | nil => exact absurd rfl h
  | cons a t ih =>
    cases t with
    | nil => rfl
    | cons b t2 =>
      have h2 : (b :: t2) ≠ [] := by simp
      rw [List.getLastD_cons, getLastD_of_ne_nil (b :: t2) a d h2, ← ih h2]
      rw [show (a :: b :: t2).length - 1 = ((b :: t2).length - 1) + 1 from by simp]
      rw [List.getD_cons_succ]

/-- C6 counterexample: with trace timestamps [0, 5, 12] and
max_len_trace = 2 the trace is truncated and the extractor returns
[12, 7]; the last non-padded entry is 7, not 0, contradicting the claim
that it is always 0. -/
theorem rem_times_trace_truncated_last_nonzero :
    rem_times_trace false (fun _ _ => (0 : ℚ)) [0, 5, 12] 2 = some [12, 7] ∧
      (7 : ℚ) ≠ 0 :=
  ⟨by norm_num [rem_times_trace], by norm_num⟩

/-- C6 (amended): for every non-empty trace and max_len_trace >= 1, the
extractor output has length exactly max_len_trace, its i-th entry for
i < min(len trace, max_len_trace) is the seconds from event i to the last
event, every padding entry repeats the last computed value, and the last
non-padded entry is 0 whenever the trace is NOT truncated
(len trace <= max_len_trace); under truncation it is the remaining time at
the last kept event, in general nonzero. -/
theorem rem_times_trace_spec (f : ℚ → ℚ → ℚ) (trace : List ℚ) (m : ℕ)
    (htr : trace ≠ []) (hm : 1 ≤ m) :
    ∃ l, rem_times_trace false f trace m = some l ∧
      l.length = m ∧
      (∀ i, i < min trace.length m →
        l.getD i 0 = trace.getLastD 0 - trace.getD i 0) ∧
      (∀ i, min trace.length m ≤ i → i < m →
        l.getD i 0 = l.getD (min trace.length m - 1) 0) ∧
      (trace.length ≤ m → l.getD (trace.length - 1) 0 = 0) := by
  have htlen : 1 ≤ trace.length := List.length_pos.mpr htr
  set vals : List ℚ := (trace.take m).map
    (fun t => trace.getLastD 0 - t) with hvals
  have hvlen : vals.length = min trace.length m := by
    rw [hvals, List.length_map, List.length_take, Nat.min_comm]
  have hvne : vals ≠ [] := by
    intro h0
    rw [h0] at hvlen
    simp only [List.length_nil] at hvlen
    omega
  have hvlem : vals.length ≤ m := by rw [hvlen]; omega
  have hventry : ∀ i, i < min trace.length m →
      vals.getD i 0 = trace.getLastD 0 - trace.getD i 0 := by
    intro i hi
    rw [hvals, getD_map_of_lt _ _ i 0 0 (by rw [List.length_take]; omega),
      getD_take_lt trace m i 0 (by omega)]
  have hres : rem_times_trace false f trace m =
      some (vals ++ List.replicate (m - vals.length) (vals.getLastD 0)) := by
    unfold rem_times_trace
    simp only [Bool.false_eq_true, if_false, ← hvals]
    rw [if_neg ?hc]
    case hc =>
      intro hcon
      exact hvne (by simpa [List.isEmpty_iff] using hcon.1)
  refine ⟨vals ++ List.replicate (m - vals.length) (vals.getLastD 0), hres,
    ?_, ?_, ?_, ?_⟩
  · rw [List.length_append, List.length_replicate]
    omega
  · intro i hi
    rw [getD_append_lt _ _ i 0 (by omega)]
    exact hventry i hi
  · intro i hi1 hi2
    rw [getD_append_ge _ _ i 0 (by omega),
      getD_replicate_lt _ _ _ _ (by omega),
      getD_append_lt _ _ _ 0 (by omega), ← hvlen,
      getD_last_eq_getLastD vals 0 hvne]
  · intro hle
    have hmin : min trace.length m = trace.length := min_eq_left hle
    rw [getD_append_lt _ _ _ 0 (by omega)]
    rw [hventry (trace.length - 1) (by omega)]
    rw [getD_last_eq_getLastD trace 0 htr]
    ring

/-- Witness for the amended C6 at the spec scenario: timestamps
[0, 5, 12] with max_len_trace = 5 give [12, 7, 0, 0, 0]. -/
theorem rem_times_trace_spec_witness :
    rem_times_trace false (fun _ _ => (0 : ℚ)) [0, 5, 12] 5 =
        some [12, 7, 0, 0, 0] ∧
      (∃ l, rem_times_trace false (fun _ _ => (0 : ℚ)) [0, 5, 12] 5 = some l ∧
        l.length = 5 ∧
        (∀ i, i < min 3 5 → l.getD i 0 = 12 - [(0 : ℚ), 5, 12].getD i 0) ∧
        (∀ i, min 3 5 ≤ i → i < 5 → l.getD i 0 = l.getD (min 3 5 - 1) 0) ∧
        (3 ≤ 5 → l.getD (3 - 1) 0 = 0)) :=
  ⟨by norm_num [rem_times_trace, List.replicate],
    rem_times_trace_spec (fun _ _ => (0 : ℚ)) [0, 5, 12] 5 (by decide) (by decide)⟩

/- Grouping of remaining times by case (keras_rnn.py lines 120-154).
   The loop keeps four pieces of state: the accumulated output
   rem_time_grouped, the per-case list rem, the per-case flag added, and
   the global cursor j into the flat remaining-time list.  Only len(ct) of
   each change-index group is used by the code (the group's contents are
   never read; values are taken from remaining_time[j] with the running
   cursor). -/

structure GroupState where
  out : List (List ℚ)
  rem : List ℚ
  added : Bool
  j : ℕ
  deriving Repr, DecidableEq

/-- One iteration of the inner loop of group_remaining_time (lines
144-153) at loop index i, for a group of length ct_len: append
remaining_time[j] to rem; if i == max_len_trace - 1, emit a copy of rem
and set added; elif i == len(ct) - 1 and not added, right-pad rem with its
own last value up to max_len_trace and emit it; always advance j. -/
def group_step (remaining_time : List ℚ) (ct_len max_len_trace : ℕ)
    (s : GroupState) (i : ℕ) : GroupState :=
  let rem := s.rem ++ [remaining_time.getD s.j 0]
  if i + 1 = max_len_trace then
    { out := s.out ++ [rem], rem := rem, added := true, j := s.j + 1 }
  else if i + 1 = ct_len ∧ s.added = false then
    let rem2 := rem ++ List.replicate (max_len_trace - rem.length) (rem.getLastD 0)
    { out := s.out ++ [rem2], rem := rem2, added := s.added, j := s.j + 1 }
  else
    { out := s.out, rem := rem, added := s.added, j := s.j + 1 }

/-- The whole inner loop for one change-index group: rem and added are
reset, out and j carry over. -/
def group_case (remaining_time : List ℚ) (max_len_trace : ℕ)
    (out : List (List ℚ)) (j : ℕ) (ct_len : ℕ) : GroupState :=
  (List.range ct_len).foldl (group_step remaining_time ct_len max_len_trace)
    { out := out, rem := [], added := false, j := j }

/-- group_remaining_time (keras_rnn.py lines 120-154). -/
def group_remaining_time (change_indexes : List (List ℕ))
    (remaining_time : List ℚ) (max_len_trace : ℕ) : List (List ℚ) :=
  (change_indexes.foldl
    (fun acc ct =>
      let s := group_case remaining_time max_len_trace acc.1 acc.2 ct.length
      (s.out, s.j))
    (([] : List (List ℚ)), (0 : ℕ))).1

/-- Closed form of the sequence emitted for one group: the next
min(n, max_len) flat values starting at cursor j, right-padded with the
last of them up to max_len when the group is shorter. -/
def seq_closed (rt : List ℚ) (m j n : ℕ) : List ℚ :=
  let vals := (rt.drop j).take (min n m)
  vals ++ List.replicate (m - n) (vals.getLastD 0)

/-- Helper: getD after a drop reads at the shifted index. -/
theorem getD_drop_add {α : Type} (l : List α) (j k : ℕ) (d : α) :
    (l.drop j).getD k d = l.getD (j + k) d := by
  induction l generalizing j with
  | nil => simp
  | cons a t ih =>
    cases j with
    | zero => simp
    | succ j =>
      rw [List.drop_succ_cons, ih j, Nat.succ_add, List.getD_cons_succ]

/-- Helper: extending a take by one element via getD. -/
theorem take_succ_getD {α : Type} (l : List α) (k : ℕ) (d : α)
    (h : k < l.length) :
    l.take (k + 1) = l.take k ++ [l.getD k d] := by
  induction l generalizing k with
  | nil => simp at h
  | cons a t ih =>
    cases k with
    | zero => rfl
    | succ k =>
      rw [List.take_succ_cons, List.take_succ_cons, List.getD_cons_succ,
        ih k (by simpa using h), List.cons_append]

/-- Helper: state of the inner loop after k < n iterations for a group of
length n: rem holds the first k flat values from cursor j, out has been
extended with the truncated copy exactly when k has reached max_len, added
records that event, and the cursor advanced by k. -/
theorem group_case_inv (rt : List ℚ) (n m : ℕ) (out : List (List ℚ)) (j : ℕ)
    (hm : 1 ≤ m) (hcov : j + n ≤ rt.length) :
    ∀ k, k < n →
      (List.range k).foldl (group_step rt n m)
          { out := out, rem := [], added := false, j := j } =
        { out := out ++ (if m ≤ k then [(rt.drop j).take m] else []),
          rem := (rt.drop j).take k,
          added := decide (m ≤ k),
          j := j + k } := by
  intro k
  induction k with
  | zero =>
    intro _
    simp [show ¬ (m ≤ 0) from by omega]
  | succ k ih =>
    intro hk
    have hk' : k < n := by omega
    rw [List.range_succ, List.foldl_append, ih hk']
    show group_step rt n m _ k = _
    unfold group_step
    have hrem : (rt.drop j).take k ++ [rt.getD (j + k) 0] = (rt.drop j).take (k + 1) := by
      rw [← getD_drop_add rt j k 0]
      exact (take_succ_getD (rt.drop j) k 0 (by rw [List.length_drop]; omega)).symm
    simp only []
    by_cases h1 : k + 1 = m
    · rw [if_pos h1]
      simp only [GroupState.mk.injEq]
      have hnk : ¬ (m ≤ k) := by omega
      have hyk : m ≤ k + 1 := by omega
      refine ⟨?_, by exact hrem, ?_, by omega⟩
      · rw [if_neg hnk, if_pos hyk, hrem, h1]
        simp
      · exact (decide_eq_true hyk).symm
    · have hne : ¬ (k + 1 = n ∧ decide (m ≤ k) = false) := by
        intro hc
        exact absurd hc.1 (by omega)
      rw [if_neg h1, if_neg hne]
      simp only [GroupState.mk.injEq]
      have hif : (m ≤ k + 1) ↔ (m ≤ k) := by omega
      refine ⟨?_, by exact hrem, ?_, by omega⟩
      · simp only [hif]
      · exact decide_eq_decide.mpr hif.symm

/-- Helper: closed form of one group's processing: a group of length
n >= 1 emits exactly one sequence, the closed form seq_closed, and
advances the cursor by n. -/
theorem group_case_out_j (rt : List ℚ) (m : ℕ) (out : List (List ℚ))
    (j n : ℕ) (hm : 1 ≤ m) (hn : 1 ≤ n) (hcov : j + n ≤ rt.length) :
    (group_case rt m out j n).out = out ++ [seq_closed rt m j n] ∧
      (group_case rt m out j n).j = j + n := by
  cases n with
  | zero => omega
  | succ n' =>
    unfold group_case
    rw [List.range_succ, List.foldl_append,
      group_case_inv rt (n' + 1) m out j hm hcov n' (by omega)]
    unfold group_step
    simp only [List.foldl_cons, List.foldl_nil]
    have hrem : (rt.drop j).take n' ++ [rt.getD (j + n') 0] =
        (rt.drop j).take (n' + 1) := by
      rw [← getD_drop_add rt j n' 0]
      exact (take_succ_getD (rt.drop j) n' 0 (by rw [List.length_drop]; omega)).symm
    by_cases h1 : n' + 1 = m
    · rw [if_pos h1]
      constructor
      · rw [if_neg (show ¬ m ≤ n' by omega)]
        unfold seq_closed
        rw [hrem]
        rw [show min (n' + 1) m = n' + 1 from by omega,
          show m - (n' + 1) = 0 from by omega]
        simp
      · show j + n' + 1 = j + (n' + 1)
        omega
    · by_cases h2 : m ≤ n'
      · have hd : decide (m ≤ n') = true := decide_eq_true h2
        rw [if_neg h1, if_neg (show ¬ (True ∧ decide (m ≤ n') = false) from by
          simp [hd])]
        constructor
        · rw [if_pos h2]
          unfold seq_closed
          rw [show min (n' + 1) m = m from by omega,
            show m - (n' + 1) = 0 from by omega]
          simp
        · show j + n' + 1 = j + (n' + 1)
          omega
      · have hd : decide (m ≤ n') = false := by simp [h2]
        rw [if_neg h1, if_pos (show True ∧ decide (m ≤ n') = false from
          ⟨trivial, hd⟩)]
      -- pad-and-emit branch
        constructor
        · rw [if_neg h2]
          unfold seq_closed
          rw [hrem]
          have hlen : ((rt.drop j).take (n' + 1)).length = n' + 1 := by
            rw [List.length_take, List.length_drop]
            omega
          rw [show min (n' + 1) m = n' + 1 from by omega, hlen]
          simp
        · show j + n' + 1 = j + (n' + 1)
          omega

/-- Helper: getD on a range, inside the range. -/
theorem getD_range_lt (n k d : ℕ) (h : k < n) : (List.range n).getD k d = k := by
  induction n with
  | zero => omega
  | succ n ih =>
    rw [List.range_succ]
    by_cases hk : k < n
    · rw [getD_append_lt _ _ _ _ (by simpa using hk)]
      exact ih hk
    · have hkn : k = n := by omega
      subst hkn
      rw [getD_append_ge _ _ _ _ (by simp)]
      simp

/-- Helper: a prefix sum is at most the total sum. -/
theorem sum_take_le_sum (l : List ℕ) (n : ℕ) : (l.take n).sum ≤ l.sum := by
  conv_rhs => rw [← List.take_append_drop n l]
  rw [List.sum_append]
  exact Nat.le_add_right _ _

/-- Helper: getD of a member list, inside the range, is a member. -/
theorem getD_mem_of_lt {α : Type} (l : List α) (k : ℕ) (d : α)
    (h : k < l.length) : l.getD k d ∈ l := by
  induction l generalizing k with
  | nil => simp at h
  | cons a t ih =>
    cases k with
    | zero => simp
    | succ k => exact List.mem_cons_of_mem a (ih k (by simpa using h))

/-- Helper: closed form of the whole fold over the change-index groups:
one emitted sequence per group, at the group's own flat offset, and the
cursor ends at the total length. -/
theorem group_fold_spec (rt : List ℚ) (m : ℕ) :
    ∀ (cis : List (List ℕ)) (out : List (List ℚ)) (j : ℕ),
      1 ≤ m → (∀ ct ∈ cis, ct ≠ []) →
      j + (cis.map List.length).sum ≤ rt.length →
      cis.foldl (fun acc ct =>
          let s := group_case rt m acc.1 acc.2 ct.length
          (s.out, s.j)) (out, j) =
        (out ++ (List.range cis.length).map (fun k =>
          seq_closed rt m (j + ((cis.take k).map List.length).sum)
            ((cis.getD k []).length)),
         j + (cis.map List.length).sum) := by
  intro cis
  induction cis with
  | nil =>
    intro out j _ _ _
    simp
  | cons ct rest ih =>
    intro out j hm hne hcov
    rw [List.foldl_cons]
    have hct : ct ≠ [] := hne ct (by simp)
    have hctlen : 1 ≤ ct.length := List.length_pos.mpr hct
    have hsum : ((ct :: rest).map List.length).sum =
        ct.length + (rest.map List.length).sum := by
      simp
    obtain ⟨ho, hj⟩ := group_case_out_j rt m out j ct.length hm hctlen (by
      rw [hsum] at hcov
      omega)
    simp only []
    rw [ho, hj]
    rw [ih (out ++ [seq_closed rt m j ct.length]) (j + ct.length) hm
      (fun c hc => hne c (by simp [hc])) (by rw [hsum] at hcov; omega)]
    have hlist : (List.range (rest.length + 1)).map (fun k =>
        seq_closed rt m (j + (((ct :: rest).take k).map List.length).sum)
          (((ct :: rest).getD k []).length)) =
      seq_closed rt m j ct.length :: (List.range rest.length).map (fun k =>
        seq_closed rt m (j + ct.length + ((rest.take k).map List.length).sum)
          ((rest.getD k []).length)) := by
      rw [List.range_succ_eq_map, List.map_cons, List.map_map]
      congr 1
      apply List.map_congr_left
      intro a _
      simp only [Function.comp_apply, List.take_succ_cons, List.map_cons,
        List.sum_cons, List.getD_cons_succ]
      congr 1
      omega
    rw [Prod.mk.injEq]
    constructor
    · rw [List.length_cons, hlist, List.append_assoc, List.singleton_append]
    · rw [hsum]
      omega

/-- Helper: shape and padding of the closed-form per-group sequence. -/
theorem seq_closed_spec (rt : List ℚ) (m off n : ℕ) (hm : 1 ≤ m)
    (hn : 1 ≤ n) (hoff : off + n ≤ rt.length) :
    (seq_closed rt m off n).length = m ∧
    (∀ i, i < min n m →
      (seq_closed rt m off n).getD i 0 = rt.getD (off + i) 0) ∧
    (∀ i, n ≤ i → i < m →
      (seq_closed rt m off n).getD i 0 =
        (seq_closed rt m off n).getD (n - 1) 0) := by
  unfold seq_closed
  simp only []
  have hvlen : ((rt.drop off).take (min n m)).length = min n m := by
    rw [List.length_take, List.length_drop]
    omega
  refine ⟨?_, ?_, ?_⟩
  · rw [List.length_append, List.length_replicate, hvlen]
    omega
  · intro i hi
    rw [getD_append_lt _ _ _ 0 (by omega),
      getD_take_lt _ _ _ 0 (by omega), getD_drop_add]
  · intro i hi1 hi2
    have hmin : min n m = n := by omega
    have hvne : (rt.drop off).take (min n m) ≠ [] := by
      intro h0
      rw [h0] at hvlen
      simp only [List.length_nil] at hvlen
      omega
    rw [getD_append_ge _ _ i 0 (by omega),
      getD_replicate_lt _ _ _ _ (by omega),
      getD_append_lt _ _ _ 0 (by omega),
      show n - 1 = ((rt.drop off).take (min n m)).length - 1 from by omega,
      getD_last_eq_getLastD _ 0 hvne]

/-- C7: for every change-index list with non-empty groups, every flat
remaining-time list covering those indices, and every max_len_trace >= 1,
each per-case sequence produced by group_remaining_time has length exactly
max_len_trace; its real entries are that case's own flat values (read at
the case's own offset), and every padding entry equals the case's own last
real value, never a value from a different case. -/
theorem group_remaining_time_spec (cis : List (List ℕ)) (rt : List ℚ) (m : ℕ)
    (hm : 1 ≤ m) (hne : ∀ ct ∈ cis, ct ≠ [])
    (hcov : (cis.map List.length).sum ≤ rt.length) :
    (group_remaining_time cis rt m).length = cis.length ∧
    ∀ k, k < cis.length →
      ((group_remaining_time cis rt m).getD k []).length = m ∧
      (∀ i, i < min ((cis.getD k []).length) m →
        ((group_remaining_time cis rt m).getD k []).getD i 0 =
          rt.getD ((((cis.take k).map List.length).sum) + i) 0) ∧
      (∀ i, (cis.getD k []).length ≤ i → i < m →
        ((group_remaining_time cis rt m).getD k []).getD i 0 =
          ((group_remaining_time cis rt m).getD k []).getD
            ((cis.getD k []).length - 1) 0) := by
  have hfold := group_fold_spec rt m cis [] 0 hm hne (by simpa using hcov)
  have hgrt : group_remaining_time cis rt m =
      (List.range cis.length).map (fun k =>
        seq_closed rt m (((cis.take k).map List.length).sum)
          ((cis.getD k []).length)) := by
    unfold group_remaining_time
    rw [hfold]
    simp
  constructor
  · rw [hgrt, List.length_map, List.length_range]
  · intro k hk
    have hoff : (((cis.take k).map List.length).sum) + (cis.getD k []).length ≤
        rt.length := by
      have h1 : (cis.map List.length).take (k + 1) =
          (cis.map List.length).take k ++ [(cis.map List.length).getD k 0] :=
        take_succ_getD _ k 0 (by rw [List.length_map]; exact hk)
      have h2 : ((cis.map List.length).take (k + 1)).sum ≤
          (cis.map List.length).sum := sum_take_le_sum _ _
      rw [h1, List.sum_append] at h2
      have h3 : (cis.map List.length).getD k 0 = (cis.getD k []).length :=
        getD_map_of_lt List.length cis k [] 0 hk
      have h4 : (cis.map List.length).take k = (cis.take k).map List.length :=
        (List.map_take List.length cis k).symm
      rw [h3, h4] at h2
      simp only [List.sum_cons, List.sum_nil] at h2
      omega
    have hn1 : 1 ≤ (cis.getD k []).length :=
      List.length_pos.mpr (hne _ (getD_mem_of_lt cis k [] hk))
    have hgd : (group_remaining_time cis rt m).getD k [] =
        seq_closed rt m (((cis.take k).map List.length).sum)
          ((cis.getD k []).length) := by
      rw [hgrt, getD_map_of_lt _ _ k 0 [] (by rw [List.length_range]; exact hk),
        getD_range_lt _ _ _ hk]
    obtain ⟨hA, hB, hC⟩ := seq_closed_spec rt m _ _ hm hn1 hoff
    rw [hgd]
    exact ⟨hA, hB, hC⟩

/-- Witness for C7 at the concrete input: groups of sizes 2 and 1, flat
values [10, 4, 7], max_len_trace 3; the grouped output is
[[10, 4, 4], [7, 7, 7]]. -/
theorem group_remaining_time_spec_witness :
    group_remaining_time [[0, 1], [2]] [10, 4, 7] 3 = [[10, 4, 4], [7, 7, 7]] ∧
      ((group_remaining_time [[0, 1], [2]] [10, 4, 7] 3).length =
          [[0, 1], [2]].length ∧
        ∀ k, k < [[0, 1], [2]].length →
          ((group_remaining_time [[0, 1], [2]] [10, 4, 7] 3).getD k []).length = 3 ∧
          (∀ i, i < min (([[0, 1], [2]].getD k []).length) 3 →
            ((group_remaining_time [[0, 1], [2]] [10, 4, 7] 3).getD k []).getD i 0 =
              [(10 : ℚ), 4, 7].getD
                (((([[0, 1], [2]].take k).map List.length).sum) + i) 0) ∧
          (∀ i, ([[0, 1], [2]].getD k []).length ≤ i → i < 3 →
            ((group_remaining_time [[0, 1], [2]] [10, 4, 7] 3).getD k []).getD i 0 =
              ((group_remaining_time [[0, 1], [2]] [10, 4, 7] 3).getD k []).getD
                (([[0, 1], [2]].getD k []).length - 1) 0)) :=
  ⟨by decide,
    group_remaining_time_spec [[0, 1], [2]] [10, 4, 7] 3 (by norm_num)
      (by decide) (by norm_num)⟩

/- Sequence-model test (keras_rnn.py lines 301-337).  The trained Keras
   regressor is an external collaborator consumed via predict; it is
   modelled as an uninterpreted function pred from the encoded log to one
   output row per trace.  A single trace passed as obj is wrapped into a
   singleton log (EventLog([obj])), so the input is modelled as the
   resulting list of traces. -/

/-- test (keras_rnn.py lines 301-337): encode the log with the bundle's
feature names and max_len_trace, run the regressor, and for each trace
denormalize the output component at index len(trace) - 1; a singleton log
yields a bare scalar (Sum.inl), a multi-trace log an ordered list
(Sum.inr).  An encoding error (empty trace) propagates as none. -/
noncomputable def keras_rnn_test (pred : List (List (List ℕ)) → List (List ℝ))
    (feature_names : List String) (max_len_trace : ℕ) (log_max_value : ℝ)
    (log : List Trace) : Option (ℝ ⊕ List ℝ) :=
  (get_X_from_log log feature_names max_len_trace).map (fun X =>
    let y := pred X
    if log.length = 1 then
      Sum.inl (reconstruct_value
        ((y.getD 0 []).getD ((log.getD 0 []).length - 1) 0) log_max_value)
    else
      Sum.inr (log.enum.map (fun it =>
        reconstruct_value ((y.getD it.1 []).getD (it.2.length - 1) 0)
          log_max_value)))

/-- C8: for every regressor, feature ordering, max_len_trace and log of
non-empty traces, the prediction for each trace denormalizes the
regressor's output component at index (true length of that trace) - 1,
not the padded length; a singleton input yields a scalar and a multi-trace
log yields an ordered list aligned with input order. -/
theorem keras_rnn_test_reads_true_length
    (pred : List (List (List ℕ)) → List (List ℝ)) (fnames : List String)
    (m : ℕ) (lmv : ℝ) (log : List Trace) (h : ∀ tr ∈ log, tr ≠ []) :
    ∃ X, get_X_from_log log fnames m = some X ∧
      (∀ t, log = [t] →
        keras_rnn_test pred fnames m lmv log =
          some (Sum.inl (reconstruct_value
            (((pred X).getD 0 []).getD (t.length - 1) 0) lmv))) ∧
      (1 < log.length →
        keras_rnn_test pred fnames m lmv log =
          some (Sum.inr (log.enum.map (fun it =>
            reconstruct_value (((pred X).getD it.1 []).getD (it.2.length - 1) 0)
              lmv)))) := by
  have hchar := get_log_rep_rnn_filter_aux log (dict_of_features fnames) m h
  have hX : get_X_from_log log fnames m =
      some ((log.map (fun tr =>
        (get_trace_rep_rnn tr (dict_of_features fnames) m).getD [])).filter
        (fun r => !r.isEmpty)) := hchar
  refine ⟨_, hX, ?_, ?_⟩
  · intro t hlt
    unfold keras_rnn_test
    rw [hX]
    simp only [Option.map_some']
    rw [if_pos (by rw [hlt]; rfl)]
    rw [hlt]
    rfl
  · intro hlen
    unfold keras_rnn_test
    rw [hX]
    simp only [Option.map_some']
    rw [if_neg (by omega)]

/-- Witness for C8 at the spec scenario: a trace of true length 4 encoded
with max_len_trace = 10; the constant regressor row lists ten outputs and
the prediction reads index 3 (value 40), not index 9. -/
theorem keras_rnn_test_reads_true_length_witness :
    ∃ X, get_X_from_log [List.replicate 4 ([] : Event)] ["f"] 10 = some X ∧
      keras_rnn_test
          (fun _ => [[10, 20, 30, 40, 50, 60, 70, 80, 90, 100]]) ["f"] 10 0
          [List.replicate 4 ([] : Event)] =
        some (Sum.inl (reconstruct_value 40 0)) := by
  obtain ⟨X, hX, h1, _⟩ := keras_rnn_test_reads_true_length
    (fun _ => [[10, 20, 30, 40, 50, 60, 70, 80, 90, 100]]) ["f"] 10 0
    [List.replicate 4 ([] : Event)] (by decide)
  refine ⟨X, hX, ?_⟩
  rw [h1 _ rfl]
  norm_num [List.getD]

/- Parameter-dict side effect of the two train functions (elasticnet.py
   lines 72-75 and keras_rnn.py lines 259-262).  The caller-supplied
   parameters mapping is a Python dict passed by reference; train performs
   exactly one write to it, parameters["enable_sort"] = False, and
   otherwise only reads it, so the dict the caller holds after train
   returns is the stored-into dict modelled here.  Values are modelled as
   a small sum type (a bool or an opaque payload). -/

inductive PyVal where
  | boolv (b : Bool)
  | otherv (n : ℕ)
  deriving DecidableEq

/-- Python dict item assignment d[k] = v: replaces the value in place when
the key exists (keeping its insertion position), otherwise appends the new
pair at the end. -/
def dictStore (d : List (String × PyVal)) (k : String) (v : PyVal) :
    List (String × PyVal) :=
  if d.any (fun p => p.1 == k) then
    d.map (fun p => if p.1 == k then (p.1, v) else p)
  else
    d ++ [(k, v)]

/-- Python dict read d[k] (None when the key is absent). -/
def dictGet (d : List (String × PyVal)) (k : String) : Option PyVal :=
  (d.find? (fun p => p.1 == k)).map (fun p => p.2)

/-- The effect of elasticnet.py train (line 75) on the caller's dict. -/
def elasticnet_train_params_effect (parameters : List (String × PyVal)) :
    List (String × PyVal) :=
  dictStore parameters "enable_sort" (PyVal.boolv false)

/-- The effect of keras_rnn.py train (line 262) on the caller's dict. -/
def keras_rnn_train_params_effect (parameters : List (String × PyVal)) :
    List (String × PyVal) :=
  dictStore parameters "enable_sort" (PyVal.boolv false)

/-- Helper: storing under a key that already occurs makes it readable. -/
theorem dictGet_map_store (d : List (String × PyVal)) (k : String) (v : PyVal)
    (hany : d.any (fun p => p.1 == k) = true) :
    dictGet (d.map (fun p => if p.1 == k then (p.1, v) else p)) k = some v := by
  induction d with
  | nil => simp at hany
  | cons q t ih =>
    rw [List.map_cons]
    by_cases hq : (q.1 == k) = true
    · unfold dictGet
      rw [hq]
      simp only [if_true]
      rw [List.find?_cons_of_pos _ (by simpa using hq)]
      rfl
    · have hqf : (q.1 == k) = false := by simpa using hq
      have hany' : t.any (fun p => p.1 == k) = true := by
        rcases List.any_eq_true.mp hany with ⟨p, hp, hpk⟩
        rcases List.mem_cons.mp hp with h | h
        · subst h; exact absurd hpk hq
        · exact List.any_eq_true.mpr ⟨p, h, hpk⟩
      unfold dictGet at ih ⊢
      rw [hqf]
      simp only [Bool.false_eq_true, if_false]
      rw [List.find?_cons_of_neg _ (by simpa using hq)]
      exact ih hany'

/-- Helper: storing under an absent key appends a readable entry. -/
theorem dictGet_append_store (d : List (String × PyVal)) (k : String)
    (v : PyVal) (hany : d.any (fun p => p.1 == k) = false) :
    dictGet (d ++ [(k, v)]) k = some v := by
  induction d with
  | nil =>
    unfold dictGet
    rw [List.nil_append, List.find?_cons_of_pos _ (by simp)]
    rfl
  | cons q t ih =>
    simp only [List.any_cons, Bool.or_eq_false_iff] at hany
    unfold dictGet at ih ⊢
    rw [List.cons_append, List.find?_cons_of_neg _ (by simp [hany.1])]
    exact ih hany.2

/-- Helper: a store never changes the value read at any other key. -/
theorem find?_pair_cons (k2 : String) (pr : String × PyVal)
    (l : List (String × PyVal)) :
    List.find? (fun p => p.1 == k2) (pr :: l) =
      if pr.1 == k2 then some pr else List.find? (fun p => p.1 == k2) l := by
  cases h : (pr.1 == k2) with
  | false => simp [List.find?, h]
  | true => simp [List.find?, h]

/-- Helper: a store never changes the value read at any other key. -/
theorem dictGet_dictStore_other (d : List (String × PyVal)) (k : String)
    (v : PyVal) (k2 : String) (hk : ¬ (k2 = k)) :
    dictGet (dictStore d k v) k2 = dictGet d k2 := by
  unfold dictStore
  by_cases hany : d.any (fun p => p.1 == k) = true
  · rw [if_pos hany]
    clear hany
    induction d with
    | nil => rfl
    | cons q t ih =>
      rw [List.map_cons]
      have hfst : (if q.1 == k then (q.1, v) else q).1 = q.1 := by
        by_cases hqk : (q.1 == k) = true
        · rw [hqk]; simp
        · have hqkf : (q.1 == k) = false := by simpa using hqk
          rw [hqkf]; simp
      unfold dictGet at ih ⊢
      rw [find?_pair_cons k2 _ _, find?_pair_cons k2 q t, hfst]
      by_cases hq2 : (q.1 == k2) = true
      · rw [if_pos hq2, if_pos hq2]
        have hqk : (q.1 == k) = false := by
          have hq2eq : q.1 = k2 := by simpa using hq2
          apply beq_eq_false_iff_ne.mpr
          rw [hq2eq]
          exact hk
        rw [hqk]
        simp
      · rw [if_neg hq2, if_neg hq2]
        exact ih
  · rw [if_neg hany]
    clear hany
    induction d with
    | nil =>
      unfold dictGet
      have hcond : ¬ (((k, v).1 == k2) = true) := by
        intro hcon
        have hkk : k = k2 := by simpa using hcon
        exact hk hkk.symm
      rw [List.nil_append, find?_pair_cons k2 (k, v) [], if_neg hcond]
    | cons q t ih =>
      unfold dictGet at ih ⊢
      rw [List.cons_append, find?_pair_cons k2 q (t ++ [(k, v)]),
        find?_pair_cons k2 q t]
      by_cases hq2 : (q.1 == k2) = true
      · rw [if_pos hq2, if_pos hq2]
      · rw [if_neg hq2, if_neg hq2]
        exact ih

/-- C10: both train functions mutate the caller-supplied parameters dict:
after train returns, its "enable_sort" key reads False, and every other
caller-supplied entry is unchanged. -/
theorem train_sets_enable_sort (p : List (String × PyVal)) :
    (dictGet (elasticnet_train_params_effect p) "enable_sort" =
        some (PyVal.boolv false) ∧
      dictGet (keras_rnn_train_params_effect p) "enable_sort" =
        some (PyVal.boolv false)) ∧
    ∀ k, ¬ (k = "enable_sort") →
      dictGet (elasticnet_train_params_effect p) k = dictGet p k ∧
      dictGet (keras_rnn_train_params_effect p) k = dictGet p k := by
  have hsame : dictGet (dictStore p "enable_sort" (PyVal.boolv false))
      "enable_sort" = some (PyVal.boolv false) := by
    unfold dictStore
    by_cases hany : p.any (fun q => q.1 == "enable_sort") = true
    · rw [if_pos hany]
      exact dictGet_map_store p "enable_sort" (PyVal.boolv false) hany
    · rw [if_neg hany]
      exact dictGet_append_store p "enable_sort" (PyVal.boolv false)
        (by simp only [Bool.not_eq_true] at hany; exact hany)
  refine ⟨⟨hsame, hsame⟩, ?_⟩
  intro k hk
  exact ⟨dictGet_dictStore_other p "enable_sort" (PyVal.boolv false) k hk,
    dictGet_dictStore_other p "enable_sort" (PyVal.boolv false) k hk⟩

/-- Witness for C10 at a one-entry caller dict and the key
"business_hours". -/
theorem train_sets_enable_sort_witness :
    (dictGet (elasticnet_train_params_effect
        [("business_hours", PyVal.boolv true)]) "enable_sort" =
          some (PyVal.boolv false) ∧
      dictGet (keras_rnn_train_params_effect
        [("business_hours", PyVal.boolv true)]) "enable_sort" =
          some (PyVal.boolv false)) ∧
    (dictGet (elasticnet_train_params_effect
        [("business_hours", PyVal.boolv true)]) "business_hours" =
          dictGet [("business_hours", PyVal.boolv true)] "business_hours" ∧
      dictGet (keras_rnn_train_params_effect
        [("business_hours", PyVal.boolv true)]) "business_hours" =
          dictGet [("business_hours", PyVal.boolv true)] "business_hours") :=
  ⟨(train_sets_enable_sort [("business_hours", PyVal.boolv true)]).1,
    (train_sets_enable_sort [("business_hours", PyVal.boolv true)]).2
      "business_hours" (by decide)⟩
